import Mathlib

/-!
Verification development for the encrypted chunked photo-archive pipeline
(`gornostay25/photos`): the producer-side chunk planner and resume logic
(`tools/lib/chunker.ts`, `tools/main.ts`), the consumer-side tar unpacker
and lazy chunk fetcher (`src/lib/worker/album-worker.ts`, `src/lib/crypto.ts`
AlbumStore), the cache validator and the login error surface.

Each definition is a shallow embedding of the corresponding TypeScript
function; theorems settle the behavioural claims about them.
-/

namespace Photos

/-! ## Producer: chunk planner (tools/lib/chunker.ts, `createChunks`)

The planner main.ts drives is the disk-path variant: each `ChunkEntry`
references converted files on disk; the planner adds the byte sizes of the
originals file (`assetPath`) and the video file (`videoPath`) of every
entry to the running chunk budget and seals the open chunk as soon as the
budget reaches `MAX_CHUNK_SIZE` or the entry list ends.  Payloads are
modelled by their byte sizes (`assetSize`, `videoSize`, with `none`
standing for a `null` path); thumbnail bytes are carried as `thumbSize`
but, like in the source, never enter the budget. -/

inductive AssetType
  | photo
  | live
  | video
deriving DecidableEq, Repr

structure ChunkEntry where
  id : Nat
  ty : AssetType
  date : String
  thumbSize : Nat
  assetSize : Option Nat
  videoSize : Option Nat
deriving DecidableEq, Repr

/-- The budget increment of one entry: `Bun.file(entry.assetPath).size`
plus `Bun.file(entry.videoPath).size`, each skipped when the path is
`null` (chunker.ts lines 146-151). -/
def entrySize (e : ChunkEntry) : Nat :=
  e.assetSize.getD 0 + e.videoSize.getD 0

def entriesSize (l : List ChunkEntry) : Nat :=
  (l.map entrySize).sum

/-- One sealed chunk: the `ChunkInfo` record pushed to `chunks` plus the
entry names of the three archives written by the flush block
(chunker.ts lines 156-217).  `videosFile` is `none` exactly when the
videos archive was skipped. -/
structure SealedChunk where
  chunkId : Nat
  entries : List ChunkEntry
  thumbFiles : List String
  assetFiles : List String
  videoFiles : List String
  thumbnailsFile : String
  originalsFile : String
  videosFile : Option String
  startIndex : Nat
  endIndex : Nat
deriving DecidableEq, Repr

/-- The flush block sealing the accumulated `chunkEntries`: thumbnails
archive with `meta.json` appended, originals archive (written
unconditionally), videos archive only when non-empty. -/
def sealChunk (chunkId startIdx endIdx : Nat) (ces : List ChunkEntry) : SealedChunk :=
  let videos := (ces.filter (fun e => e.videoSize.isSome)).map
    (fun e => "video" ++ toString e.id ++ ".mp4")
  { chunkId := chunkId
    entries := ces
    thumbFiles := ces.map (fun e => "thumb" ++ toString e.id ++ ".avif") ++ ["meta.json"]
    assetFiles := (ces.filter (fun e => e.assetSize.isSome)).map
      (fun e => "asset" ++ toString e.id ++ ".avif")
    videoFiles := videos
    thumbnailsFile := "thumbs-" ++ toString chunkId ++ ".enc"
    originalsFile := "originals-" ++ toString chunkId ++ ".enc"
    videosFile := if videos.isEmpty then none
      else some ("videos-" ++ toString chunkId ++ ".enc")
    startIndex := startIdx
    endIndex := endIdx }

/-- The archive files actually written for a sealed chunk: thumbnails and
originals unconditionally, videos only when present (the three
`writeEncryptedArchive` calls of the flush block). -/
def writtenArchives (c : SealedChunk) : List String :=
  [c.thumbnailsFile, c.originalsFile] ++ c.videosFile.toList

/-- The planner loop (chunker.ts lines 141-224), with the size ceiling as
a parameter: state is the next chunk id, the start index of the open
chunk, the running budget, and the entries accumulated for the open
chunk.  The chunk is flushed when the budget has reached the ceiling or
the entry just added is the last one; `endIndex` is the id of that last
added entry. -/
def createChunksGo (C : Nat) :
    List ChunkEntry → Nat → Nat → Nat → List ChunkEntry → List SealedChunk
  | [], _, _, _, _ => []
  | e :: rest, chunkId, startIdx, curSize, ces =>
    if C ≤ curSize + entrySize e ∨ rest = [] then
      sealChunk chunkId startIdx e.id (ces ++ [e]) ::
        createChunksGo C rest (chunkId + 1) (e.id + 1) 0 []
    else
      createChunksGo C rest chunkId startIdx (curSize + entrySize e) (ces ++ [e])

def createChunksWith (C : Nat) (entries : List ChunkEntry) : List SealedChunk :=
  createChunksGo C entries 0 0 0 []

/-- 500 MB, the ceiling constant of chunker.ts. -/
def MAX_CHUNK_SIZE : Nat := 500 * 1024 * 1024

def createChunks (entries : List ChunkEntry) : List SealedChunk :=
  createChunksWith MAX_CHUNK_SIZE entries

def chunkRanges (cs : List SealedChunk) : List (Nat × Nat) :=
  cs.map (fun c => (c.startIndex, c.endIndex))

/-- `[startIndex, endIndex]` ranges cover `[s, t)` exactly: consecutive,
inclusive, gap-free and in increasing order. -/
def coversExactly : Nat → List (Nat × Nat) → Nat → Bool
  | s, [], t => s == t
  | s, r :: rest, t => (r.1 == s) && (decide (s ≤ r.2)) && coversExactly (r.2 + 1) rest t



lemma entriesSize_concat (l : List ChunkEntry) (e : ChunkEntry) :
    entriesSize (l ++ [e]) = entriesSize l + entrySize e := by
  simp [entriesSize]

lemma createChunksGo_ne_nil (C : Nat) :
    ∀ (es : List ChunkEntry), es ≠ [] →
    ∀ cid s cur ces, createChunksGo C es cid s cur ces ≠ [] := by
  intro es
  induction es with
  | nil => intro h; exact absurd rfl h
  | cons e rest ih =>
    intro _ cid s cur ces
    rw [createChunksGo]
    by_cases hf : C ≤ cur + entrySize e ∨ rest = []
    · rw [if_pos hf]; exact List.cons_ne_nil _ _
    · rw [if_neg hf]
      have hrest : rest ≠ [] := fun hn => hf (Or.inr hn)
      exact ih hrest _ _ _ _

lemma mem_go_full (C : Nat) :
    ∀ (es : List ChunkEntry) (cid s cur : Nat) (ces : List ChunkEntry),
      entriesSize ces = cur →
      ∀ c ∈ (createChunksGo C es cid s cur ces).dropLast, C ≤ entriesSize c.entries := by
  intro es
  induction es with
  | nil => intro cid s cur ces _ c hc; simp [createChunksGo] at hc
  | cons e rest ih =>
    intro cid s cur ces hces c hc
    rw [createChunksGo] at hc
    by_cases hf : C ≤ cur + entrySize e ∨ rest = []
    · rw [if_pos hf] at hc
      by_cases hrest : rest = []
      · subst hrest; simp [createChunksGo] at hc
      · have hne := createChunksGo_ne_nil C rest hrest (cid + 1) (e.id + 1) 0 []
        rw [List.dropLast_cons_of_ne_nil hne, List.mem_cons] at hc
        rcases hc with hc | hc
        · subst hc
          have hfull : C ≤ cur + entrySize e := by
            rcases hf with h | h
            · exact h
            · exact absurd h hrest
          simp only [sealChunk]
          rw [entriesSize_concat, hces]
          exact hfull
        · exact ih (cid + 1) (e.id + 1) 0 [] rfl c hc
    · rw [if_neg hf] at hc
      exact ih cid s (cur + entrySize e) (ces ++ [e])
        (by rw [entriesSize_concat, hces]) c hc

lemma mem_go_open (C : Nat) (hC : 0 < C) :
    ∀ (es : List ChunkEntry) (cid s cur : Nat) (ces : List ChunkEntry),
      entriesSize ces = cur → cur < C →
      ∀ c ∈ createChunksGo C es cid s cur ces, entriesSize c.entries.dropLast < C := by
  intro es
  induction es with
  | nil => intro cid s cur ces _ _ c hc; simp [createChunksGo] at hc
  | cons e rest ih =>
    intro cid s cur ces hces hopen c hc
    rw [createChunksGo] at hc
    by_cases hf : C ≤ cur + entrySize e ∨ rest = []
    · rw [if_pos hf] at hc
      rw [List.mem_cons] at hc
      rcases hc with hc | hc
      · subst hc
        simp only [sealChunk, List.dropLast_concat]
        rw [hces]
        exact hopen
      · exact ih (cid + 1) (e.id + 1) 0 [] rfl hC c hc
    · rw [if_neg hf] at hc
      push_neg at hf
      exact ih cid s (cur + entrySize e) (ces ++ [e])
        (by rw [entriesSize_concat, hces]) hf.1 c hc


lemma go_covers (C : Nat) :
    ∀ (es : List ChunkEntry) (cid s cur : Nat) (ces : List ChunkEntry),
      es ≠ [] →
      es.map (fun e => e.id) = List.range' (s + ces.length) es.length →
      coversExactly s (chunkRanges (createChunksGo C es cid s cur ces))
        (s + ces.length + es.length) = true := by
  intro es
  induction es with
  | nil => intro _ _ _ _ h _; exact absurd rfl h
  | cons e rest ih =>
    intro cid s cur ces _ hids
    rw [List.length_cons, List.range'_succ, List.map_cons] at hids
    have hide : e.id = s + ces.length := (List.cons.injEq _ _ _ _).mp hids |>.1
    have hidr : rest.map (fun e => e.id) = List.range' (s + ces.length + 1) rest.length :=
      (List.cons.injEq _ _ _ _).mp hids |>.2
    rw [createChunksGo]
    by_cases hf : C ≤ cur + entrySize e ∨ rest = []
    · rw [if_pos hf]
      show coversExactly s ((s, e.id) :: chunkRanges (createChunksGo C rest (cid + 1) (e.id + 1) 0 [])) _ = true
      rw [coversExactly]
      simp only [beq_self_eq_true, Bool.true_and]
      have hle : s ≤ e.id := by omega
      rw [decide_eq_true hle, Bool.true_and]
      by_cases hrest : rest = []
      · subst hrest
        show coversExactly (e.id + 1) [] _ = true
        rw [coversExactly]
        simp only [List.length_cons, List.length_nil, beq_iff_eq]
        omega
      · have h0 := ih (cid + 1) (e.id + 1) 0 [] hrest
          (by simpa [hide] using hidr)
        have ht : s + ces.length + (e :: rest).length = e.id + 1 + ([] : List ChunkEntry).length + rest.length := by
          simp [List.length_cons]; omega
        rw [ht]
        exact h0
    · rw [if_neg hf]
      have hrest : rest ≠ [] := fun hn => hf (Or.inr hn)
      have h0 := ih cid s (cur + entrySize e) (ces ++ [e]) hrest
        (by simpa [List.length_append] using hidr)
      have ht : s + ces.length + (e :: rest).length = s + (ces ++ [e]).length + rest.length := by
        simp [List.length_append, List.length_cons]; omega
      rw [ht]
      exact h0

def sizeProfile (entries : List ChunkEntry) : List (Nat × Nat) :=
  entries.map (fun e => (e.id, entrySize e))

lemma go_ranges_profile (C : Nat) :
    ∀ (es1 es2 : List ChunkEntry), sizeProfile es1 = sizeProfile es2 →
    ∀ (cid s cur : Nat) (ces1 ces2 : List ChunkEntry),
      chunkRanges (createChunksGo C es1 cid s cur ces1) =
        chunkRanges (createChunksGo C es2 cid s cur ces2) := by
  intro es1
  induction es1 with
  | nil =>
    intro es2 hp cid s cur ces1 ces2
    have : es2 = [] := by
      cases es2 with
      | nil => rfl
      | cons h t => simp [sizeProfile] at hp
    subst this
    rfl
  | cons e1 r1 ih =>
    intro es2 hp cid s cur ces1 ces2
    cases es2 with
    | nil => simp [sizeProfile] at hp
    | cons e2 r2 =>
      simp only [sizeProfile, List.map_cons, List.cons.injEq, Prod.mk.injEq] at hp
      obtain ⟨⟨hid, hsz⟩, hrest⟩ := hp
      have hnil : (r1 = []) ↔ (r2 = []) := by
        constructor
        · intro h; subst h
          cases r2 with
          | nil => rfl
          | cons a b => simp [sizeProfile] at hrest
        · intro h; subst h
          cases r1 with
          | nil => rfl
          | cons a b => simp [sizeProfile] at hrest
      rw [createChunksGo, createChunksGo]
      by_cases hf : C ≤ cur + entrySize e1 ∨ r1 = []
      · have hf2 : C ≤ cur + entrySize e2 ∨ r2 = [] := by
          rcases hf with h | h
          · exact Or.inl (hsz ▸ h)
          · exact Or.inr (hnil.mp h)
        rw [if_pos hf, if_pos hf2]
        show ((s, e1.id) :: chunkRanges (createChunksGo C r1 (cid + 1) (e1.id + 1) 0 [])) = _
        rw [hid]
        exact congrArg _ (ih r2 hrest (cid + 1) (e2.id + 1) 0 [] [])
      · have hf2 : ¬(C ≤ cur + entrySize e2 ∨ r2 = []) := by
          intro h
          rcases h with h | h
          · exact hf (Or.inl (hsz ▸ h))
          · exact hf (Or.inr (hnil.mpr h))
        rw [if_neg hf, if_neg hf2]
        rw [hsz]
        exact ih r2 hrest cid s (cur + entrySize e2) (ces1 ++ [e1]) (ces2 ++ [e2])

lemma mem_go_seal (C : Nat) :
    ∀ (es : List ChunkEntry) (cid s cur : Nat) (ces : List ChunkEntry),
      ∀ c ∈ createChunksGo C es cid s cur ces,
        ∃ i st en l, c = sealChunk i st en l := by
  intro es
  induction es with
  | nil => intro cid s cur ces c hc; simp [createChunksGo] at hc
  | cons e rest ih =>
    intro cid s cur ces c hc
    rw [createChunksGo] at hc
    by_cases hf : C ≤ cur + entrySize e ∨ rest = []
    · rw [if_pos hf, List.mem_cons] at hc
      rcases hc with hc | hc
      · exact ⟨cid, s, e.id, ces ++ [e], hc⟩
      · exact ih (cid + 1) (e.id + 1) 0 [] c hc
    · rw [if_neg hf] at hc
      exact ih cid s (cur + entrySize e) (ces ++ [e]) c hc

lemma sealChunk_props (i st en : Nat) (l : List ChunkEntry) :
    (sealChunk i st en l).thumbFiles.getLast? = some "meta.json"
    ∧ (sealChunk i st en l).originalsFile ∈ writtenArchives (sealChunk i st en l)
    ∧ ((sealChunk i st en l).videosFile.isSome ↔ ∃ e ∈ l, e.videoSize.isSome) := by
  refine ⟨?_, ?_, ?_⟩
  · simp [sealChunk]
  · simp [writtenArchives]
  · simp only [sealChunk]
    by_cases hv : ((l.filter (fun e => e.videoSize.isSome)).map
        (fun e => "video" ++ toString e.id ++ ".mp4")).isEmpty
    · rw [if_pos hv]
      simp only [Option.isSome_none, Bool.false_eq_true, false_iff]
      rw [List.isEmpty_iff, List.map_eq_nil_iff, List.filter_eq_nil_iff] at hv
      intro ⟨e, he, hs⟩
      exact absurd hs (by simpa using hv e he)
    · rw [if_neg hv]
      simp only [Option.isSome_some, true_iff]
      rw [List.isEmpty_iff] at hv
      have hne : l.filter (fun e => e.videoSize.isSome) ≠ [] := by
        intro h
        rw [h] at hv
        exact hv rfl
      rcases List.exists_mem_of_ne_nil _ hne with ⟨x, hx⟩
      have hx2 := List.mem_filter.mp hx
      exact ⟨x, hx2.1, by simpa using hx2.2⟩


/-! ## Claim theorems for the chunk planner -/

/-- Three 10 MB photo assets, as in the spec scenario for the chunk
boundary. -/
def tenMB : Nat := 10 * 1024 * 1024

def threeTenMBAssets : List ChunkEntry :=
  [ { id := 0, ty := .photo, date := "", thumbSize := 0,
      assetSize := some tenMB, videoSize := none },
    { id := 1, ty := .photo, date := "", thumbSize := 0,
      assetSize := some tenMB, videoSize := none },
    { id := 2, ty := .photo, date := "", thumbSize := 0,
      assetSize := some tenMB, videoSize := none } ]

/-- C1 counterexample: with payloads [10MB, 10MB, 10MB] and ceiling 15MB
the planner emits chunks `[0,1]`, `[2,2]` — not `[0,0]`, `[1,2]` as the
claim states.  The chunk is closed only AFTER adding the asset that
pushes the running total to the ceiling, so that asset still lands in
the closing chunk. -/
theorem c1_scenario_counterexample :
    chunkRanges (createChunksWith (15 * 1024 * 1024) threeTenMBAssets) = [(0, 1), (2, 2)]
    ∧ chunkRanges (createChunksWith (15 * 1024 * 1024) threeTenMBAssets) ≠ [(0, 0), (1, 2)] := by
  constructor
  · decide
  · decide

/-- C1 (amended): a chunk is closed immediately after adding the asset
whose bytes push the running total to or over the ceiling: every emitted
chunk except the last has originals+video budget at least the ceiling,
and dropping the final asset of any emitted chunk brings its budget
strictly below the ceiling (so the overflowing asset ends its chunk, and
the next asset starts the next chunk). -/
theorem c1_chunk_closes_after_reaching_ceiling (C : Nat) (hC : 0 < C)
    (entries : List ChunkEntry) :
    (∀ c ∈ (createChunksWith C entries).dropLast, C ≤ entriesSize c.entries)
    ∧ (∀ c ∈ createChunksWith C entries, entriesSize c.entries.dropLast < C) :=
  ⟨mem_go_full C entries 0 0 0 [] rfl, mem_go_open C hC entries 0 0 0 [] rfl hC⟩

theorem c1_chunk_closes_after_reaching_ceiling_witness :
    0 < 15 * 1024 * 1024
    ∧ ((∀ c ∈ (createChunksWith (15 * 1024 * 1024) threeTenMBAssets).dropLast,
          15 * 1024 * 1024 ≤ entriesSize c.entries)
       ∧ (∀ c ∈ createChunksWith (15 * 1024 * 1024) threeTenMBAssets,
          entriesSize c.entries.dropLast < 15 * 1024 * 1024)) :=
  ⟨by decide, c1_chunk_closes_after_reaching_ceiling (15 * 1024 * 1024) (by decide) threeTenMBAssets⟩

/-- A chunk entry for a standalone video: no originals payload. -/
def videoOnlyEntry : ChunkEntry :=
  { id := 0, ty := .video, date := "", thumbSize := 1,
    assetSize := none, videoSize := some 5 }

/-- C3 counterexample: a chunk holding one video-only asset (no original
payload at all) still gets its originals archive written —
`originals-0.enc` is among the written archive files although
`assetFiles` is empty.  The originals archive is written
unconditionally, not only when some asset has an original payload. -/
theorem c3_originals_always_written_counterexample :
    (createChunksWith 100 [videoOnlyEntry]).map (fun c => (c.assetFiles, writtenArchives c))
      = [([], ["thumbs-0.enc", "originals-0.enc", "videos-0.enc"])] := by
  decide

/-- C3 (amended): for every sealed chunk, the thumbnails archive is
always written with the metadata entry appended last, the originals
archive is also always written (possibly empty), and the videos archive
is written exactly when some asset of the chunk has a video payload
(`videosFile` is null otherwise, and then only thumbnails and originals
are written). -/
theorem c3_archive_write_policy (C : Nat) (entries : List ChunkEntry)
    (c : SealedChunk) (hc : c ∈ createChunksWith C entries) :
    c.thumbFiles.getLast? = some "meta.json"
    ∧ c.thumbnailsFile ∈ writtenArchives c
    ∧ c.originalsFile ∈ writtenArchives c
    ∧ (c.videosFile.isSome ↔ ∃ e ∈ c.entries, e.videoSize.isSome)
    ∧ (c.videosFile = none → writtenArchives c = [c.thumbnailsFile, c.originalsFile]) := by
  obtain ⟨i, st, en, l, rfl⟩ := mem_go_seal C entries 0 0 0 [] c hc
  obtain ⟨h1, h2, h3⟩ := sealChunk_props i st en l
  refine ⟨h1, ?_, h2, h3, ?_⟩
  · simp [writtenArchives]
  · intro hn
    simp [writtenArchives, hn]

theorem c3_archive_write_policy_witness :
    (sealChunk 0 0 0 [videoOnlyEntry]).thumbFiles.getLast? = some "meta.json"
    ∧ (sealChunk 0 0 0 [videoOnlyEntry]).thumbnailsFile ∈ writtenArchives (sealChunk 0 0 0 [videoOnlyEntry])
    ∧ (sealChunk 0 0 0 [videoOnlyEntry]).originalsFile ∈ writtenArchives (sealChunk 0 0 0 [videoOnlyEntry])
    ∧ ((sealChunk 0 0 0 [videoOnlyEntry]).videosFile.isSome
        ↔ ∃ e ∈ (sealChunk 0 0 0 [videoOnlyEntry]).entries, e.videoSize.isSome)
    ∧ ((sealChunk 0 0 0 [videoOnlyEntry]).videosFile = none
        → writtenArchives (sealChunk 0 0 0 [videoOnlyEntry])
          = [(sealChunk 0 0 0 [videoOnlyEntry]).thumbnailsFile,
             (sealChunk 0 0 0 [videoOnlyEntry]).originalsFile]) :=
  c3_archive_write_policy 100 [videoOnlyEntry] (sealChunk 0 0 0 [videoOnlyEntry]) (by decide)

/-- C4: chunk boundaries are a function of the per-entry pairs
`(id, originals bytes + video bytes)` alone.  Two entry sequences that
agree on ids and on originals+video payload byte totals — however much
they differ in thumbnail bytes, types or in how the bytes split between
originals and video — produce identical chunk ranges: the running tally
counts exactly originals+video bytes, videos included, thumbnails never. -/
theorem c4_budget_counts_originals_plus_video (C : Nat)
    (en1 en2 : List ChunkEntry) (h : sizeProfile en1 = sizeProfile en2) :
    chunkRanges (createChunksWith C en1) = chunkRanges (createChunksWith C en2) :=
  go_ranges_profile C en1 en2 h 0 0 0 [] []

def liveSplitEntry : ChunkEntry :=
  { id := 0, ty := .live, date := "", thumbSize := 5,
    assetSize := some 3, videoSize := some 4 }

def photoBigThumbEntry : ChunkEntry :=
  { id := 0, ty := .photo, date := "", thumbSize := 999,
    assetSize := some 7, videoSize := some 0 }

theorem c4_budget_counts_originals_plus_video_witness :
    sizeProfile [liveSplitEntry] = sizeProfile [photoBigThumbEntry]
    ∧ chunkRanges (createChunksWith 5 [liveSplitEntry])
        = chunkRanges (createChunksWith 5 [photoBigThumbEntry]) :=
  ⟨by decide, c4_budget_counts_originals_plus_video 5 [liveSplitEntry] [photoBigThumbEntry] (by decide)⟩

/-- C5: for every entry list whose ids are exactly `0..T-1` in ascending
order (T ≥ 1) and every positive ceiling, the emitted chunk
`[startIndex, endIndex]` ranges form a partition of `[0, T)`:
the first starts at 0, each is non-empty, each next range starts at the
previous `endIndex + 1`, and the last ends at `T - 1` — no gaps, no
overlaps, increasing order. -/
theorem c5_chunks_partition_ids (C T : Nat) (_hC : 0 < C) (hT : 1 ≤ T)
    (entries : List ChunkEntry)
    (hids : entries.map (fun e => e.id) = List.range T) :
    coversExactly 0 (chunkRanges (createChunksWith C entries)) T = true := by
  have hlen : entries.length = T := by
    have h := congrArg List.length hids
    simpa using h
  have hne : entries ≠ [] := by
    intro h
    rw [h] at hlen
    simp at hlen
    omega
  have hids' : entries.map (fun e => e.id) = List.range' (0 + ([] : List ChunkEntry).length) entries.length := by
    rw [hids, hlen, List.range_eq_range']
    simp
  have h0 := go_covers C entries 0 0 0 [] hne hids'
  simpa [createChunksWith, hlen] using h0

theorem c5_chunks_partition_ids_witness :
    0 < 1 ∧ 1 ≤ 3
    ∧ threeTenMBAssets.map (fun e => e.id) = List.range 3
    ∧ coversExactly 0 (chunkRanges (createChunksWith 1 threeTenMBAssets)) 3 = true :=
  ⟨by decide, by decide, by decide,
    c5_chunks_partition_ids 1 3 (by decide) (by decide) threeTenMBAssets (by decide)⟩


/-! ## Consumer: tar unpacking (album-worker.ts, `parseTar`)

Bytes are modelled as `List Nat`.  `parseTar` scans 512-byte blocks,
stops at an all-zero header, reads the entry name (bytes 0-99 up to the
first null) and the size field (bytes 124-135 up to the first null,
trimmed and parsed as octal with `parseInt(..., 8) || 0`), then slices
exactly `size` bytes (clamped at the buffer end, as `Uint8Array.slice`
clamps) and skips to the next block boundary.  The JS `while` loop is
rendered with a fuel argument larger than any possible iteration count
(each iteration advances the offset by at least 512). -/

def jsWhitespace (b : Nat) : Bool :=
  (9 ≤ b && b ≤ 13) || b == 32 || b == 160

def trimBytes (bs : List Nat) : List Nat :=
  ((bs.dropWhile jsWhitespace).reverse.dropWhile jsWhitespace).reverse

def isOctDigit (b : Nat) : Bool := 48 ≤ b && b ≤ 55

def octValue (ds : List Nat) : Nat :=
  ds.foldl (fun a d => a * 8 + (d - 48)) 0

/-- `parseInt(s, 8)` on an already-trimmed string: optional sign, then
the longest prefix of octal digits; no digits means NaN (`none`). -/
def parseIntOct (bs : List Nat) : Option Int :=
  match bs with
  | 45 :: rest =>
    if (rest.takeWhile isOctDigit) = [] then none
    else some (-(octValue (rest.takeWhile isOctDigit) : Int))
  | 43 :: rest =>
    if (rest.takeWhile isOctDigit) = [] then none
    else some (octValue (rest.takeWhile isOctDigit) : Int)
  | _ =>
    if (bs.takeWhile isOctDigit) = [] then none
    else some (octValue (bs.takeWhile isOctDigit) : Int)

/-- `parseInt(sizeStr.trim(), 8) || 0`: NaN is coerced to 0. -/
def sizeField (bs : List Nat) : Int :=
  (parseIntOct (trimBytes bs)).getD 0

def bytesToString (bs : List Nat) : String :=
  String.mk (bs.map (fun b => Char.ofNat b))

/-- `Map.set`: overwrite in place if the key exists, else append. -/
def setEntry (files : List (String × List Nat)) (k : String) (v : List Nat) :
    List (String × List Nat) :=
  if files.any (fun p => p.1 == k) then
    files.map (fun p => if p.1 == k then (k, v) else p)
  else files ++ [(k, v)]

def parseTarGo (buffer : List Nat) :
    Nat → Nat → List (String × List Nat) → List (String × List Nat)
  | 0, _, files => files
  | fuel + 1, offset, files =>
    if offset < buffer.length - 512 then
      if ((buffer.drop offset).take 512).all (fun b => b == 0) then files
      else
        if 0 < sizeField ((((buffer.drop offset).take 512).drop 124).take 12 |>.takeWhile (fun b => b != 0))
            ∧ bytesToString ((((buffer.drop offset).take 512).take 100).takeWhile (fun b => b != 0)) ≠ "" then
          parseTarGo buffer fuel
            (offset + 512
              + ((sizeField ((((buffer.drop offset).take 512).drop 124).take 12 |>.takeWhile (fun b => b != 0))).toNat + 511) / 512 * 512)
            (setEntry files
              (bytesToString ((((buffer.drop offset).take 512).take 100).takeWhile (fun b => b != 0)))
              ((buffer.drop (offset + 512)).take
                (sizeField ((((buffer.drop offset).take 512).drop 124).take 12 |>.takeWhile (fun b => b != 0))).toNat))
        else
          parseTarGo buffer fuel (offset + 512) files
    else files

def parseTar (buffer : List Nat) : List (String × List Nat) :=
  parseTarGo buffer (buffer.length + 1) 0 []

/-- A 514-byte stream: one header naming entry `a` with declared octal
size 4, followed by only 2 payload bytes. -/
def truncatedTar : List Nat :=
  (97 :: List.replicate 123 0) ++ (52 :: List.replicate 387 0) ++ [65, 66]

/-- A 513-byte stream: one header naming entry `a` whose size field is
the letter `z` — not an octal number. -/
def badSizeTar : List Nat :=
  (97 :: List.replicate 123 0) ++ (122 :: List.replicate 387 0) ++ [0]

set_option maxRecDepth 20000

/-- C2 counterexample: malformed tar streams are NOT rejected.
`truncatedTar` declares entry `a` with octal size 4 but ends after 2
payload bytes; `parseTar` succeeds and silently registers the mis-sized
entry `("a", [65, 66])` (the clamped slice) instead of failing with an
error.  `badSizeTar` has an undecodable size field (the letter `z`);
`parseTar` succeeds and silently skips the entry instead of rejecting
the stream.  `parseTar` has no error path for either malformation. -/
theorem c2_malformed_not_rejected_counterexample :
    parseTar truncatedTar = [("a", [65, 66])]
    ∧ parseTar badSizeTar = [] := by
  constructor
  · decide
  · decide

/-- C2 (amended): archive unpack is lenient, not rejecting.  A header
size field that does not decode as an octal number is coerced to 0 by
`parseInt(...) || 0` and the entry is skipped without an error; a final
blob truncated before its declared size is registered with only the
bytes actually present (here 2 bytes against declared size 4, since
`slice` clamps); decoding returns normally in both cases. -/
theorem c2_lenient_tar_parsing :
    sizeField [122] = 0
    ∧ parseTar badSizeTar = []
    ∧ parseTar truncatedTar = [("a", [65, 66])]
    ∧ ([65, 66] : List Nat).length < (sizeField [52]).toNat := by
  refine ⟨by decide, ?_, ?_, by decide⟩
  · decide
  · decide


/-! ## Consumer: manifest chunks and the AlbumStore fetch state machine
(src/lib/crypto.ts)

Per-session state of `AlbumStore`: `loadedChunks` (keys of chunks whose
decode finished), `pendingChunks` (keys with an outstanding worker fetch,
each with the number of waiters attached by `waitForChunk`), and —
for reasoning about coalescing — the multiset of fetch messages posted
to the worker and not yet answered (`inflight`).  Keys are
`"<kind>-<chunkId>"` strings as in the source. -/

structure ManifestChunk where
  chunkId : Nat
  thumbnailsFile : String
  originalsFile : String
  videosFile : Option String
  startIndex : Nat
  endIndex : Nat
deriving DecidableEq, Repr

inductive ChunkKind
  | thumbnails
  | originals
  | videos
deriving DecidableEq, Repr

def kindName : ChunkKind → String
  | .thumbnails => "thumbnails"
  | .originals => "originals"
  | .videos => "videos"

def chunkKey (kind : ChunkKind) (chunkId : Nat) : String :=
  kindName kind ++ "-" ++ toString chunkId

/-- File selection of `requestChunk`: thumbnails and originals files are
always present in a manifest chunk; `videosFile` may be null. -/
def fileFor : ChunkKind → ManifestChunk → Option String
  | .thumbnails, c => some c.thumbnailsFile
  | .originals, c => some c.originalsFile
  | .videos, c => c.videosFile

structure FetchState where
  loaded : List String
  pending : List (String × Nat)
  inflight : List String
deriving DecidableEq, Repr

def pendingKeys (s : FetchState) : List String :=
  s.pending.map (fun p => p.1)

def initialFetchState : FetchState := { loaded := [], pending := [], inflight := [] }

/-- `AlbumStore.requestChunk` (crypto.ts lines 341-362): no-op when the
chunk id is out of range, when the key is already loaded or pending, or
when the chunk has no file of this kind; otherwise it records an empty
waiter list under the key and posts one fetch message.  The returned
Bool reports whether a fetch message was posted. -/
def requestChunk (chunks : List ManifestChunk) (s : FetchState)
    (kind : ChunkKind) (chunkId : Nat) : FetchState × Bool :=
  match chunks[chunkId]? with
  | none => (s, false)
  | some chunk =>
    if chunkKey kind chunkId ∈ s.loaded ∨ chunkKey kind chunkId ∈ pendingKeys s then
      (s, false)
    else
      match fileFor kind chunk with
      | none => (s, false)
      | some _ =>
        ({ s with
            pending := (chunkKey kind chunkId, 0) :: s.pending
            inflight := chunkKey kind chunkId :: s.inflight }, true)

/-- `AlbumStore.handleChunkMessage` (crypto.ts lines 316-339) consuming
one worker response: `chunk-ready` adds the key to `loadedChunks`;
both `chunk-ready` and `chunk-error` wake every waiter and delete the
pending entry.  The answered fetch message leaves `inflight`. -/
def handleResponse (s : FetchState) (key : String) (ok : Bool) : FetchState :=
  { loaded := if ok then key :: s.loaded else s.loaded
    pending := s.pending.filter (fun p => p.1 ≠ key)
    inflight := s.inflight.erase key }

/-- `AlbumStore.waitForChunk` (crypto.ts lines 368-379): resolves
immediately when the key is loaded or has no pending entry; otherwise
attaches the caller as one more waiter.  The Bool reports immediate
resolution. -/
def waitForChunk (s : FetchState) (key : String) : FetchState × Bool :=
  if key ∈ s.loaded then (s, true)
  else if key ∈ pendingKeys s then
    ({ s with pending := s.pending.map (fun p => if p.1 = key then (p.1, p.2 + 1) else p) },
      false)
  else (s, true)

inductive FetchEvent
  | request (kind : ChunkKind) (chunkId : Nat)
  | wait (key : String)
  | response (key : String) (ok : Bool)

def fetchStep (chunks : List ManifestChunk) (s : FetchState) : FetchEvent → FetchState
  | .request kind chunkId => (requestChunk chunks s kind chunkId).1
  | .wait key => (waitForChunk s key).1
  | .response key ok => handleResponse s key ok

/-- Session histories: any interleaving of `requestChunk` calls,
`waitForChunk` calls and worker responses, where a response can only
answer a message that is actually outstanding (the worker sends exactly
one response per fetch message). -/
inductive Reachable (chunks : List ManifestChunk) : FetchState → Prop
  | init : Reachable chunks initialFetchState
  | request (s : FetchState) (kind : ChunkKind) (chunkId : Nat) :
      Reachable chunks s → Reachable chunks (fetchStep chunks s (.request kind chunkId))
  | wait (s : FetchState) (key : String) :
      Reachable chunks s → Reachable chunks (fetchStep chunks s (.wait key))
  | response (s : FetchState) (key : String) (ok : Bool) :
      Reachable chunks s → key ∈ s.inflight →
      Reachable chunks (fetchStep chunks s (.response key ok))

def FetchInv (s : FetchState) : Prop :=
  (∀ k, s.inflight.count k ≤ 1)
  ∧ (∀ k, k ∈ s.inflight ↔ k ∈ pendingKeys s)
  ∧ (∀ k, k ∈ s.loaded → k ∉ s.inflight)

lemma pendingKeys_bump (s : FetchState) (key : String) :
    pendingKeys { s with pending := s.pending.map (fun p => if p.1 = key then (p.1, p.2 + 1) else p) }
      = pendingKeys s := by
  simp only [pendingKeys, List.map_map]
  congr 1
  funext p
  by_cases h : p.1 = key <;> simp [h]

lemma mem_pendingKeys_filter (l : List (String × Nat)) (key k : String) :
    k ∈ (l.filter (fun p => p.1 ≠ key)).map (fun p => p.1)
      ↔ (k ∈ l.map (fun p => p.1) ∧ k ≠ key) := by
  constructor
  · intro h
    rcases List.mem_map.mp h with ⟨p, hp, rfl⟩
    have hf := List.mem_filter.mp hp
    exact ⟨List.mem_map.mpr ⟨p, hf.1, rfl⟩, by simpa using hf.2⟩
  · intro ⟨h1, h2⟩
    rcases List.mem_map.mp h1 with ⟨p, hp, rfl⟩
    exact List.mem_map.mpr ⟨p, List.mem_filter.mpr ⟨hp, by simpa using h2⟩, rfl⟩

lemma count_erase_eq_zero (l : List String) (key : String)
    (h : l.count key ≤ 1) : key ∉ l.erase key := by
  rw [← List.count_eq_zero, List.count_erase_self]
  omega

lemma fetchInv_of_reachable (chunks : List ManifestChunk) (s : FetchState)
    (h : Reachable chunks s) : FetchInv s := by
  induction h with
  | init => refine ⟨?_, ?_, ?_⟩ <;> simp [initialFetchState, pendingKeys]
  | request s kind chunkId _ ih =>
    obtain ⟨ih1, ih2, ih3⟩ := ih
    simp only [fetchStep, requestChunk]
    cases hidx : chunks[chunkId]? with
    | none => exact ⟨ih1, ih2, ih3⟩
    | some chunk =>
      by_cases hmem : chunkKey kind chunkId ∈ s.loaded ∨ chunkKey kind chunkId ∈ pendingKeys s
      · simp only [if_pos hmem]
        exact ⟨ih1, ih2, ih3⟩
      · simp only [if_neg hmem]
        cases hfile : fileFor kind chunk with
        | none => exact ⟨ih1, ih2, ih3⟩
        | some f =>
          push_neg at hmem
          have hnin : chunkKey kind chunkId ∉ s.inflight :=
            fun hin => hmem.2 ((ih2 _).mp hin)
          dsimp only
          refine ⟨?_, ?_, ?_⟩
          · intro k
            by_cases hk : k = chunkKey kind chunkId
            · subst hk
              rw [List.count_cons_self, List.count_eq_zero.mpr hnin]
            · rw [List.count_cons_of_ne hk]
              exact ih1 k
          · intro k
            simp only [pendingKeys, List.map_cons, List.mem_cons] at ih2 ⊢
            constructor
            · intro hc
              rcases hc with hc | hc
              · exact Or.inl hc
              · exact Or.inr ((ih2 k).mp hc)
            · intro hc
              rcases hc with hc | hc
              · exact Or.inl hc
              · exact Or.inr ((ih2 k).mpr hc)
          · intro k hk hcontra
            rcases List.mem_cons.mp hcontra with hc | hc
            · exact hmem.1 (hc ▸ hk)
            · exact ih3 k hk hc
  | wait s key _ ih =>
    obtain ⟨ih1, ih2, ih3⟩ := ih
    simp only [fetchStep, waitForChunk]
    by_cases h1 : key ∈ s.loaded
    · simp only [if_pos h1]; exact ⟨ih1, ih2, ih3⟩
    · simp only [if_neg h1]
      by_cases h2 : key ∈ pendingKeys s
      · simp only [if_pos h2]
        refine ⟨ih1, ?_, ih3⟩
        intro k
        rw [pendingKeys_bump]
        exact ih2 k
      · simp only [if_neg h2]; exact ⟨ih1, ih2, ih3⟩
  | response s key ok _ hin ih =>
    obtain ⟨ih1, ih2, ih3⟩ := ih
    simp only [fetchStep, handleResponse]
    have herase : ∀ k, k ∈ s.inflight.erase key → k ∈ s.inflight :=
      fun k hk => (List.erase_sublist key s.inflight).subset hk
    have hkey_out : key ∉ s.inflight.erase key := count_erase_eq_zero _ _ (ih1 key)
    refine ⟨?_, ?_, ?_⟩
    · intro k
      exact le_trans ((List.erase_sublist key s.inflight).count_le k) (ih1 k)
    · intro k
      by_cases hk : k = key
      · subst hk
        apply iff_of_false hkey_out
        intro hc
        exact ((mem_pendingKeys_filter s.pending k k).mp hc).2 rfl
      · rw [List.mem_erase_of_ne hk]
        show _ ↔ k ∈ (s.pending.filter (fun p => p.1 ≠ key)).map (fun p => p.1)
        rw [mem_pendingKeys_filter]
        constructor
        · intro hc
          exact ⟨(ih2 k).mp hc, hk⟩
        · intro hc
          exact (ih2 k).mpr hc.1
    · intro k hk hcontra
      by_cases hok : ok
      · simp only [if_pos hok, List.mem_cons] at hk
        rcases hk with hk | hk
        · exact hkey_out (hk ▸ hcontra)
        · exact ih3 k hk (herase k hcontra)
      · simp only [if_neg hok] at hk
        exact ih3 k hk (herase k hcontra)


/-- C8: in every reachable per-session state, at most one fetch message
is outstanding per `(kind, chunkId)` key; a `requestChunk` against a
pending or loaded key is a no-op posting nothing (concurrent `getAsset`
callers instead attach as waiters via `waitForChunk`); and only after a
`chunk-error` response wakes the waiters and deletes the pending entry
may a later request post one new fetch for that key. -/
theorem c8_fetch_coalescing (chunks : List ManifestChunk) (s : FetchState)
    (h : Reachable chunks s) (kind : ChunkKind) (chunkId : Nat) :
    (s.inflight.count (chunkKey kind chunkId) ≤ 1)
    ∧ (chunkKey kind chunkId ∈ pendingKeys s →
        requestChunk chunks s kind chunkId = (s, false))
    ∧ (chunkKey kind chunkId ∈ s.loaded →
        requestChunk chunks s kind chunkId = (s, false))
    ∧ (chunkKey kind chunkId ∈ pendingKeys s →
        (waitForChunk s (chunkKey kind chunkId)).2 = false)
    ∧ (chunkKey kind chunkId ∈ s.inflight →
        chunkKey kind chunkId ∉ pendingKeys (handleResponse s (chunkKey kind chunkId) false)
        ∧ chunkKey kind chunkId ∉ (handleResponse s (chunkKey kind chunkId) false).loaded
        ∧ ∀ chunk, chunks[chunkId]? = some chunk → (fileFor kind chunk).isSome →
            (requestChunk chunks (handleResponse s (chunkKey kind chunkId) false) kind chunkId).2
              = true) := by
  obtain ⟨inv1, inv2, inv3⟩ := fetchInv_of_reachable chunks s h
  refine ⟨inv1 _, ?_, ?_, ?_, ?_⟩
  · intro hp
    simp only [requestChunk]
    cases chunks[chunkId]? with
    | none => rfl
    | some chunk =>
      dsimp only
      rw [if_pos (Or.inr hp)]
  · intro hl
    simp only [requestChunk]
    cases chunks[chunkId]? with
    | none => rfl
    | some chunk =>
      dsimp only
      rw [if_pos (Or.inl hl)]
  · intro hp
    have hin : chunkKey kind chunkId ∈ s.inflight := (inv2 _).mpr hp
    have hnl : chunkKey kind chunkId ∉ s.loaded := fun hl => inv3 _ hl hin
    simp only [waitForChunk, if_neg hnl, if_pos hp]
  · intro hin
    have hnl : chunkKey kind chunkId ∉ s.loaded := fun hl => inv3 _ hl hin
    have hnp : chunkKey kind chunkId ∉ pendingKeys (handleResponse s (chunkKey kind chunkId) false) := by
      simp only [handleResponse, Bool.false_eq_true, if_neg]
      intro hc
      exact (mem_pendingKeys_filter s.pending _ _ |>.mp hc).2 rfl
    have hnl2 : chunkKey kind chunkId ∉ (handleResponse s (chunkKey kind chunkId) false).loaded := by
      simp only [handleResponse, Bool.false_eq_true, if_neg]
      exact hnl
    refine ⟨hnp, hnl2, ?_⟩
    intro chunk hidx hfile
    simp only [requestChunk, hidx]
    rw [if_neg (by
      intro hc
      rcases hc with hc | hc
      · exact hnl2 hc
      · exact hnp hc)]
    cases hf : fileFor kind chunk with
    | none => rw [hf] at hfile; simp at hfile
    | some f => rfl

def demoManifestChunks : List ManifestChunk :=
  [ { chunkId := 0, thumbnailsFile := "thumbs-0.enc", originalsFile := "originals-0.enc",
      videosFile := none, startIndex := 0, endIndex := 0 } ]

theorem c8_fetch_coalescing_witness :
    ((FetchState.mk [] [("thumbnails-0", 0)] ["thumbnails-0"]).inflight.count
        (chunkKey ChunkKind.thumbnails 0) ≤ 1)
    ∧ requestChunk demoManifestChunks (FetchState.mk [] [("thumbnails-0", 0)] ["thumbnails-0"])
        ChunkKind.thumbnails 0
        = (FetchState.mk [] [("thumbnails-0", 0)] ["thumbnails-0"], false)
    ∧ (waitForChunk (FetchState.mk [] [("thumbnails-0", 0)] ["thumbnails-0"])
        (chunkKey ChunkKind.thumbnails 0)).2 = false := by
  have hs : Reachable demoManifestChunks (FetchState.mk [] [("thumbnails-0", 0)] ["thumbnails-0"]) := by
    have h0 : Reachable demoManifestChunks
        (fetchStep demoManifestChunks initialFetchState
          (FetchEvent.request ChunkKind.thumbnails 0)) :=
      Reachable.request initialFetchState ChunkKind.thumbnails 0 Reachable.init
    have he : fetchStep demoManifestChunks initialFetchState
        (FetchEvent.request ChunkKind.thumbnails 0)
        = FetchState.mk [] [("thumbnails-0", 0)] ["thumbnails-0"] := by decide
    rw [he] at h0
    exact h0
  have h := c8_fetch_coalescing demoManifestChunks _ hs ChunkKind.thumbnails 0
  have hp : chunkKey ChunkKind.thumbnails 0
      ∈ pendingKeys (FetchState.mk [] [("thumbnails-0", 0)] ["thumbnails-0"]) := by decide
  exact ⟨h.1, h.2.1 hp, h.2.2.2.1 hp⟩


/-! ## Consumer: `getAssetBlob` (crypto.ts lines 395-408) -/

inductive GetOutcome
  | hit (b : Nat)
  | nullRes
  | suspended (key : String)
deriving DecidableEq, Repr

/-- `AlbumStore.findChunkForId`: first manifest chunk whose inclusive
range contains the id. -/
def findChunkForId (chunks : List ManifestChunk) (id : Nat) : Option ManifestChunk :=
  chunks.find? (fun c => decide (c.startIndex ≤ id) && decide (id ≤ c.endIndex))

/-- `AlbumStore.getAssetBlob` up to its first suspension point: read the
store; on a miss resolve the owning chunk (null when none), call
`requestChunk`, then `waitForChunk` — when that resolves immediately the
store is re-read and `blob ?? null` returned, otherwise the caller is
suspended on the chunk key until a worker response wakes it.  The store
is modelled as a read-only snapshot `db` since no store write can happen
between the two reads of a non-fetching call. -/
def getAssetStart (chunks : List ManifestChunk) (db : ChunkKind → Nat → Option Nat)
    (s : FetchState) (kind : ChunkKind) (id : Nat) : GetOutcome × FetchState :=
  match db kind id with
  | some b => (.hit b, s)
  | none =>
    match findChunkForId chunks id with
    | none => (.nullRes, s)
    | some chunk =>
      if (waitForChunk (requestChunk chunks s kind chunk.chunkId).1
          (chunkKey kind chunk.chunkId)).2 then
        (match db kind id with
          | some b => GetOutcome.hit b
          | none => GetOutcome.nullRes,
         (waitForChunk (requestChunk chunks s kind chunk.chunkId).1
            (chunkKey kind chunk.chunkId)).1)
      else
        (.suspended (chunkKey kind chunk.chunkId),
         (waitForChunk (requestChunk chunks s kind chunk.chunkId).1
            (chunkKey kind chunk.chunkId)).1)

/-- The tail of `getAssetBlob` after a suspended waiter is woken (by
`chunk-ready` or `chunk-error`): `await db.get(kind, id)` then
`blob ?? null`. -/
def getAssetResume (db : ChunkKind → Nat → Option Nat) (kind : ChunkKind) (id : Nat) :
    GetOutcome :=
  match db kind id with
  | some b => .hit b
  | none => .nullRes

/-- C10: when the store has no entry for `(kind, id)`, `getAssetBlob`
resolves to null (never throws, never hangs): (i) for an id outside
every chunk range; (ii) for an id whose owning chunk has no file of the
requested kind (e.g. `videosFile` null) and no fetch of that key is
pending or done — `requestChunk` declines, `waitForChunk` resolves
immediately, and the re-read yields null; (iii) after a failed chunk
fetch wakes the suspended waiter, the re-read yields null. -/
theorem c10_get_asset_blob_resolves_null (chunks : List ManifestChunk)
    (db : ChunkKind → Nat → Option Nat) (s : FetchState) (kind : ChunkKind) (id : Nat)
    (hdb : db kind id = none) :
    ((∀ c ∈ chunks, ¬(c.startIndex ≤ id ∧ id ≤ c.endIndex)) →
        getAssetStart chunks db s kind id = (GetOutcome.nullRes, s))
    ∧ (∀ chunk, findChunkForId chunks id = some chunk →
        chunks[chunk.chunkId]? = some chunk → fileFor kind chunk = none →
        chunkKey kind chunk.chunkId ∉ s.loaded → chunkKey kind chunk.chunkId ∉ pendingKeys s →
        getAssetStart chunks db s kind id = (GetOutcome.nullRes, s))
    ∧ getAssetResume db kind id = GetOutcome.nullRes := by
  refine ⟨?_, ?_, ?_⟩
  · intro hout
    have hfind : findChunkForId chunks id = none := by
      rw [findChunkForId, List.find?_eq_none]
      intro c hc
      simp only [Bool.and_eq_true, decide_eq_true_eq]
      intro hcontra
      exact hout c hc hcontra
    simp only [getAssetStart, hdb, hfind]
  · intro chunk hfind hidx hfile hnl hnp
    have hreq : requestChunk chunks s kind chunk.chunkId = (s, false) := by
      simp only [requestChunk, hidx]
      rw [if_neg (fun hc => hc.elim hnl hnp)]
      simp only [hfile]
    have hwait : waitForChunk s (chunkKey kind chunk.chunkId) = (s, true) := by
      simp only [waitForChunk, if_neg hnl, if_neg hnp]
    simp only [getAssetStart, hdb, hfind, hreq, hwait]
    simp
  · simp only [getAssetResume, hdb]


theorem c10_get_asset_blob_resolves_null_witness :
    getAssetStart demoManifestChunks (fun _ _ => none) initialFetchState ChunkKind.videos 0
      = (GetOutcome.nullRes, initialFetchState)
    ∧ getAssetStart demoManifestChunks (fun _ _ => none) initialFetchState ChunkKind.thumbnails 5
      = (GetOutcome.nullRes, initialFetchState)
    ∧ getAssetResume (fun _ _ => none) ChunkKind.videos 0 = GetOutcome.nullRes := by
  have h0 := c10_get_asset_blob_resolves_null demoManifestChunks (fun _ _ => none)
    initialFetchState ChunkKind.videos 0 rfl
  have h5 := c10_get_asset_blob_resolves_null demoManifestChunks (fun _ _ => none)
    initialFetchState ChunkKind.thumbnails 5 rfl
  refine ⟨?_, ?_, h0.2.2⟩
  · exact h0.2.1
      { chunkId := 0, thumbnailsFile := "thumbs-0.enc", originalsFile := "originals-0.enc",
        videosFile := none, startIndex := 0, endIndex := 0 }
      (by decide) (by decide) rfl (by decide) (by decide)
  · exact h5.1 (by decide)

/-! ## Consumer: cache validation (crypto.ts, `validateCache` and
`clearCache`)

Per-album browser state: the `manifest-hash:<album>` localStorage entry
and the album's IndexedDB store (modelled as a list of key/value
entries; `clearCache` deletes the whole database). -/

structure AlbumCache where
  storedHash : Option String
  db : List (Nat × Nat)
deriving DecidableEq, Repr

/-- `AlbumStore.validateCache` (crypto.ts lines 304-312): read the
stored hash, unconditionally record the new hash, and wipe the store
via `clearCache` only when a different hash was previously recorded. -/
def validateCache (newHash : String) (c : AlbumCache) : AlbumCache :=
  match c.storedHash with
  | none => { storedHash := some newHash, db := c.db }
  | some old =>
    if old ≠ newHash then { storedHash := some newHash, db := [] }
    else { storedHash := some newHash, db := c.db }

/-- C6: on album open the freshly decrypted manifest's hash is compared
with the recorded one — `validateCache` runs synchronously inside the
`manifest-decrypted` handler, before any chunk request can be issued.
First observation records the hash and leaves the store untouched; a
matching hash removes no cached entry; a mismatch wipes the entire
store, and the new hash is recorded in every case. -/
theorem c6_manifest_hash_cache_invalidation (c : AlbumCache) (newHash : String) :
    (validateCache newHash c).storedHash = some newHash
    ∧ (c.storedHash = none →
        validateCache newHash c = { storedHash := some newHash, db := c.db })
    ∧ (c.storedHash = some newHash →
        validateCache newHash c = { storedHash := some newHash, db := c.db })
    ∧ (∀ old, c.storedHash = some old → old ≠ newHash →
        (validateCache newHash c).db = []) := by
  refine ⟨?_, ?_, ?_, ?_⟩
  · rw [validateCache]
    cases c.storedHash with
    | none => rfl
    | some old =>
      dsimp only
      by_cases h : old ≠ newHash
      · rw [if_pos h]
      · rw [if_neg h]
  · intro h
    rw [validateCache, h]
  · intro h
    rw [validateCache, h]
    simp
  · intro old h hne
    rw [validateCache, h]
    dsimp only
    rw [if_pos hne]

theorem c6_manifest_hash_cache_invalidation_witness :
    (validateCache "h2" (AlbumCache.mk (some "h1") [(0, 7)])).db = []
    ∧ validateCache "h2" (AlbumCache.mk none [(0, 7)]) = AlbumCache.mk (some "h2") [(0, 7)]
    ∧ validateCache "h2" (AlbumCache.mk (some "h2") [(0, 7)]) = AlbumCache.mk (some "h2") [(0, 7)] :=
  ⟨(c6_manifest_hash_cache_invalidation (AlbumCache.mk (some "h1") [(0, 7)]) "h2").2.2.2
      "h1" rfl (by decide),
   (c6_manifest_hash_cache_invalidation (AlbumCache.mk none [(0, 7)]) "h2").2.1 rfl,
   (c6_manifest_hash_cache_invalidation (AlbumCache.mk (some "h2") [(0, 7)]) "h2").2.2.1 rfl⟩

/-! ## Producer: resumable conversion (tools/main.ts, lines 147-177)

`resumeCheck` models steps 2 and 4 of main.ts: load the progress file,
compare its ordered source list against the fresh scan (the source does
`JSON.stringify(a) === JSON.stringify(b)`, which on lists of strings is
exactly list equality), and either keep the completed set or start
fresh; `cacheCleared` records whether `rm(cacheDir)` ran — it runs only
inside `if (progress)` on a mismatch. -/

structure ScannedAsset where
  ty : AssetType
  imagePath : Option String
  videoPath : Option String
deriving DecidableEq, Repr

/-- `sourceKey` (main.ts lines 69-72). -/
def sourceKey (a : ScannedAsset) : String :=
  match a.imagePath, a.videoPath with
  | some i, some v => i ++ "|" ++ v
  | some i, none => i
  | none, some v => v
  | none, none => ""

structure ProgressFile where
  sources : List String
  completed : List Nat
deriving DecidableEq, Repr

structure ResumeState where
  completedSet : List Nat
  cacheCleared : Bool
deriving DecidableEq, Repr

def resumeCheck (currentSources : List String) (progress : Option ProgressFile) : ResumeState :=
  match progress with
  | some p =>
    if p.sources = currentSources then { completedSet := p.completed, cacheCleared := false }
    else { completedSet := [], cacheCleared := true }
  | none => { completedSet := [], cacheCleared := false }

/-- Step 4 of main.ts: ids are list indices of the scan; every id not in
the completed set is submitted for conversion. -/
def toConvert (total : Nat) (completedSet : List Nat) : List Nat :=
  (List.range total).filter (fun id => decide (id ∉ completedSet))

/-- C7 counterexample: with no persisted progress record every scanned
id is converted, but the partial cache is NOT discarded — main.ts runs
`rm(cacheDir, ...)` only inside `if (progress)`, so on a missing record
no discard happens, against the claim's "on any mismatch or missing
record, the partial cache is discarded". -/
theorem c7_missing_record_counterexample :
    (resumeCheck ["x"] none).cacheCleared = false
    ∧ toConvert 1 (resumeCheck ["x"] none).completedSet = [0] := by
  constructor
  · rfl
  · decide

/-- C7 (amended): the ids submitted for conversion equal the scanned ids
minus the recorded completed set exactly when the persisted record's
ordered source list equals the fresh scan's elementwise; on a mismatch
with an existing record the partial cache is discarded and every id is
reconverted; on a missing record no cache discard runs but every id is
likewise converted; an id in the completed set is never submitted. -/
theorem c7_resume_skips_completed (scanned : List ScannedAsset) (progress : Option ProgressFile) :
    (∀ p, progress = some p → p.sources = scanned.map sourceKey →
        resumeCheck (scanned.map sourceKey) progress
          = { completedSet := p.completed, cacheCleared := false }
        ∧ toConvert scanned.length (resumeCheck (scanned.map sourceKey) progress).completedSet
          = (List.range scanned.length).filter (fun id => decide (id ∉ p.completed)))
    ∧ (∀ p, progress = some p → p.sources ≠ scanned.map sourceKey →
        resumeCheck (scanned.map sourceKey) progress
          = { completedSet := [], cacheCleared := true }
        ∧ toConvert scanned.length (resumeCheck (scanned.map sourceKey) progress).completedSet
          = List.range scanned.length)
    ∧ (progress = none →
        resumeCheck (scanned.map sourceKey) progress
          = { completedSet := [], cacheCleared := false }
        ∧ toConvert scanned.length (resumeCheck (scanned.map sourceKey) progress).completedSet
          = List.range scanned.length)
    ∧ (∀ id ∈ (resumeCheck (scanned.map sourceKey) progress).completedSet,
        id ∉ toConvert scanned.length (resumeCheck (scanned.map sourceKey) progress).completedSet) := by
  refine ⟨?_, ?_, ?_, ?_⟩
  · intro p hp hs
    subst hp
    have hr : resumeCheck (scanned.map sourceKey) (some p)
        = { completedSet := p.completed, cacheCleared := false } := by
      show (if p.sources = scanned.map sourceKey
          then ({ completedSet := p.completed, cacheCleared := false } : ResumeState)
          else { completedSet := [], cacheCleared := true }) = _
      rw [if_pos hs]
    exact ⟨hr, by rw [hr]; rfl⟩
  · intro p hp hs
    subst hp
    have hr : resumeCheck (scanned.map sourceKey) (some p)
        = { completedSet := [], cacheCleared := true } := by
      show (if p.sources = scanned.map sourceKey
          then ({ completedSet := p.completed, cacheCleared := false } : ResumeState)
          else { completedSet := [], cacheCleared := true }) = _
      rw [if_neg hs]
    refine ⟨hr, ?_⟩
    rw [hr]
    simp [toConvert]
  · intro hp
    subst hp
    refine ⟨rfl, ?_⟩
    simp [resumeCheck, toConvert]
  · intro id hid hcontra
    rw [toConvert, List.mem_filter] at hcontra
    have hni := of_decide_eq_true hcontra.2
    exact hni hid

def demoScan : List ScannedAsset :=
  [ { ty := .photo, imagePath := some "x", videoPath := none } ]

def demoProgress : ProgressFile := { sources := ["x"], completed := [0] }

theorem c7_resume_skips_completed_witness :
    resumeCheck (demoScan.map sourceKey) (some demoProgress)
      = { completedSet := [0], cacheCleared := false }
    ∧ toConvert demoScan.length
        (resumeCheck (demoScan.map sourceKey) (some demoProgress)).completedSet
      = (List.range demoScan.length).filter (fun id => decide (id ∉ demoProgress.completed)) := by
  have h := (c7_resume_skips_completed demoScan (some demoProgress)).1 demoProgress rfl (by decide)
  exact h

/-! ## Consumer: login error surface (+layout.svelte `handleLogin`,
crypto.ts `AlbumStore.init`, album-worker.ts `handleDecryptManifest`)

The worker turns each failure into a message string (`HTTP <status>`
from a failed fetch, or the raised exception's own message for a
decrypt/authentication or JSON failure); `init` stores it in
`store.error`, and `handleLogin` displays
`store.error ?? 'Wrong password or album not found'`. -/

inductive ManifestFailure
  | httpError (status : Nat)
  | decryptError (msg : String)
deriving DecidableEq, Repr

/-- The `error` field of the `manifest-error` response
(album-worker.ts lines 68-83): `err.message`. -/
def manifestErrorMessage : ManifestFailure → String
  | .httpError status => "HTTP " ++ toString status
  | .decryptError msg => msg

/-- `loginError = store.error ?? 'Wrong password or album not found'`
(+layout.svelte line 28). -/
def loginErrorShown (storeError : Option String) : String :=
  storeError.getD "Wrong password or album not found"

/-- C9 counterexample: two album-open failures with different causes
show different user-visible text.  A missing manifest (HTTP 404) and an
unreachable server (HTTP 503) display different messages, and a
decryption failure (wrong password, surfacing the DOMException text)
differs from both — the displayed error depends on which check failed. -/
theorem c9_error_message_counterexample :
    loginErrorShown (some (manifestErrorMessage (ManifestFailure.httpError 404)))
      ≠ loginErrorShown (some (manifestErrorMessage (ManifestFailure.httpError 503)))
    ∧ loginErrorShown (some (manifestErrorMessage (ManifestFailure.decryptError "OperationError")))
      ≠ loginErrorShown (some (manifestErrorMessage (ManifestFailure.httpError 404))) := by
  constructor
  · decide
  · decide

/-- C9 (amended): the login screen shows the worker's cause-specific
error string verbatim whenever `store.error` is set; the single generic
message appears only when `store.error` is null.  In particular an HTTP
failure surfaces its status code, so failures for different causes show
different text. -/
theorem c9_login_error_cause_specific (e : String) :
    loginErrorShown (some e) = e
    ∧ loginErrorShown none = "Wrong password or album not found"
    ∧ (∀ status : Nat,
        manifestErrorMessage (ManifestFailure.httpError status) = "HTTP " ++ toString status)
    ∧ (∀ msg : String, manifestErrorMessage (ManifestFailure.decryptError msg) = msg) :=
  ⟨rfl, rfl, fun _ => rfl, fun _ => rfl⟩

end Photos
